import Mathlib

/-!
Verification of the voice-typing assistant (`main.py`): the deterministic
text-normalization pipeline (`punctuate`, `auto_capitalise`), the session
control loop (`listen_and_type`), session control (`start_listening_thread`,
`stop_listening`), and a timed view of the loop for cancellation latency.

Strings are modelled as `List Char`; the regex operations of the source are
embedded as explicit left-to-right scans with the same matching semantics
(case-insensitive whole-word keyword replacement, whitespace runs before
punctuation, sentence-terminator spacing), restricted to the ASCII character
classes the source relies on.
-/

namespace VoiceTyping

/-- Python `\w` (ASCII): letters, digits, underscore. Used for the `\b`
word boundaries of the keyword patterns in `punctuate`. -/
def wordChar (c : Char) : Bool :=
  (65 ≤ c.toNat && c.toNat ≤ 90) || (97 ≤ c.toNat && c.toNat ≤ 122) ||
  (48 ≤ c.toNat && c.toNat ≤ 57) || c == '_'

/-- Python `\s` (ASCII): space, tab, newline, carriage return, vertical
tab, form feed. -/
def spaceChar (c : Char) : Bool :=
  c.toNat == 32 || (9 ≤ c.toNat && c.toNat ≤ 13)

/-- The characters of the class `[,.!?]` in `punctuate`'s spacing fix. -/
def punctChar (c : Char) : Bool :=
  c == ',' || c == '.' || c == '!' || c == '?'

/-- The sentence terminators `[.?!]` used by `auto_capitalise`. -/
def termChar (c : Char) : Bool :=
  c == '.' || c == '?' || c == '!'

/-- Code point of the lower-cased character (ASCII case folding), the
comparison key for `re.IGNORECASE` matching. -/
def lowerN (c : Char) : Nat :=
  if 65 ≤ c.toNat ∧ c.toNat ≤ 90 then c.toNat + 32 else c.toNat

/-- Case-insensitive character equality. -/
def ciEq (a b : Char) : Bool := lowerN a == lowerN b

/-- ASCII upper-casing of one character, the model of `str.upper()` applied
to the single first character of a sentence in `auto_capitalise`. -/
def upperChar (c : Char) : Char :=
  if 97 ≤ c.toNat ∧ c.toNat ≤ 122 then Char.ofNat (c.toNat - 32) else c

/-- Case-insensitively match the pattern `k` against a prefix of `l`;
on success return the remainder of `l`. -/
def matchCIrest : List Char → List Char → Option (List Char)
  | [], l => some l
  | _ :: _, [] => none
  | q :: qs, c :: cs => if ciEq q c then matchCIrest qs cs else none

/-- End-of-match word boundary: the remainder starts with a non-word
character or is empty. -/
def endB : List Char → Bool
  | [] => true
  | c :: _ => !wordChar c

/-- A whole-word, case-insensitive occurrence of `k` starts here (the
leading `\b` is the caller's responsibility via the previous character). -/
def headOcc (k : List Char) (l : List Char) : Bool :=
  match matchCIrest k l with
  | some rest => endB rest
  | none => false

/-- One pass of `re.sub(r'\bKEYWORD\b', SYM, text, flags=re.IGNORECASE)`:
scan left to right; at a position whose previous character is not a word
character, replace a whole-word case-insensitive occurrence of `k` by `sym`
and continue after it (`skip` counts match characters still to consume). -/
def subA (k : List Char) (sym : Char) : Nat → Bool → List Char → List Char
  | _, _, [] => []
  | n+1, _, c :: cs => subA k sym n (wordChar c) cs
  | 0, prevW, c :: cs =>
    if prevW then c :: subA k sym 0 (wordChar c) cs
    else if headOcc k (c :: cs) then sym :: subA k sym (k.length - 1) true cs
    else c :: subA k sym 0 (wordChar c) cs

/-- Replace every whole-word case-insensitive occurrence of `k` by `sym`. -/
def subKW (k : List Char) (sym : Char) (l : List Char) : List Char :=
  subA k sym 0 false l

/-- Is there a whole-word case-insensitive occurrence of `k` anywhere in
`l`, `prevW` being the word-ness of the character before `l`? -/
def hasKW (k : List Char) : Bool → List Char → Bool
  | _, [] => false
  | prevW, c :: cs => (!prevW && headOcc k (c :: cs)) || hasKW k (wordChar c) cs

/-- The ordered replacement table of `punctuate`. -/
def replacements : List (List Char × Char) :=
  [("question mark".data, '?'), ("exclamation mark".data, '!'),
   ("comma".data, ','), ("full stop".data, '.'), ("new line".data, '\n')]

/-- `re.sub(r'\s+([,.!?])', r'\1', out)`: delete every whitespace run that
immediately precedes a punctuation character. -/
def sbpA : Nat → List Char → List Char
  | _, [] => []
  | n+1, _ :: cs => sbpA n cs
  | 0, c :: cs =>
    if spaceChar c then
      match List.dropWhile spaceChar (c :: cs) with
      | p :: _ =>
        if punctChar p then p :: sbpA (List.takeWhile spaceChar (c :: cs)).length cs
        else c :: sbpA 0 cs
      | [] => c :: sbpA 0 cs
    else c :: sbpA 0 cs

/-- Delete stray spaces before punctuation (see `sbpA`). -/
def sbp (l : List Char) : List Char := sbpA 0 l

/-- Python `str.strip()`: drop leading and trailing whitespace. -/
def pyStrip (l : List Char) : List Char :=
  ((l.dropWhile spaceChar).reverse.dropWhile spaceChar).reverse

/-- `punctuate` on character lists: apply the keyword replacements in table
order, remove whitespace before punctuation, and strip. -/
def punctuateL (l : List Char) : List Char :=
  pyStrip (sbp (List.foldl (fun acc p => subKW p.1 p.2 acc) l replacements))

/-- `punctuate(text)` from `main.py`. -/
def punctuate (s : String) : String := ⟨punctuateL s.data⟩

/-- `re.sub(r'\s*([.?!])\s*', r'\1 ', text)`: scan left to right; wherever
an optional whitespace run, a terminator, and an optional whitespace run
match, emit the terminator followed by exactly one space and continue after
the match (`skip` counts match characters still to consume). -/
def capA : Nat → List Char → List Char
  | _, [] => []
  | n+1, _ :: cs => capA n cs
  | 0, c :: cs =>
    match List.dropWhile spaceChar (c :: cs) with
    | t :: r2 =>
      if termChar t then
        t :: ' ' :: capA ((List.takeWhile spaceChar (c :: cs)).length +
          (List.takeWhile spaceChar r2).length) cs
      else c :: capA 0 cs
    | [] => c :: capA 0 cs

/-- `re.split(r'([.?!]\s)', normalized)`: split at terminator-plus-single-
whitespace delimiters, keeping the two-character delimiters as separate
list entries, so the result alternates text, delimiter, text, … -/
def splitT : List Char → List (List Char)
  | [] => [[]]
  | [c] => [[c]]
  | c :: d :: rest =>
    if termChar c && spaceChar d then [] :: [c, d] :: splitT rest
    else
      match splitT (d :: rest) with
      | [] => [[c]]
      | p :: ps => (c :: p) :: ps

/-- Capitalize the first character of a nonempty sentence, leaving the rest
untouched (`sent[0].upper() + sent[1:]` guarded by `if sent`). -/
def capSent : List Char → List Char
  | [] => []
  | c :: cs => upperChar c :: cs

/-- The reassembly loop of `auto_capitalise`: for each text part, strip it,
capitalize its first character, and append the following delimiter. -/
def capJoin : List (List Char) → List Char
  | [] => []
  | [t] => capSent (pyStrip t)
  | t :: sep :: rest => capSent (pyStrip t) ++ sep ++ capJoin rest

/-- `auto_capitalise` on character lists: normalize terminator spacing,
strip, split at terminator boundaries, capitalize each sentence, join and
strip. -/
def auto_capitaliseL (l : List Char) : List Char :=
  pyStrip (capJoin (splitT (pyStrip (capA 0 l))))

/-- `auto_capitalise(text)` from `main.py`. -/
def auto_capitalise (s : String) : String := ⟨auto_capitaliseL s.data⟩

/-! ## Session loop model

`listen_and_type` is modelled as a function over a script of per-iteration
environment outcomes.  Each iteration of the `while is_listening` loop
reads the flag, performs one bounded acquisition, one recognition call, and
the post-processing/emission steps.  Status messages of `update_status` are
modelled by the constructors of `Status`. -/

/-- The configuration checkboxes read live each iteration
(`auto_punctuation.get()`, `auto_capital.get()`). -/
structure Config where
  auto_punctuation : Bool
  auto_capital : Bool
deriving DecidableEq, Repr

/-- Outcome of `recogniser.recognize_google`: a transcription, an
`UnknownValueError` (no confident result), or a `RequestError`
(connectivity failure). -/
inductive RecogOutcome where
  | success (raw : String)
  | unknownValue
  | requestError
deriving DecidableEq, Repr

/-- Status messages posted through `update_status`:
`listening` = "Listening... Speak now.", `didntCatch` = "Didn't catch that.
Try again.", `serviceUnavailable` = "Could not connect to speech service
(check internet).", `typingFailed e` = "Typing failed: e",
`stopped` = "Stopped listening.", `started` = "Started listening...",
`alreadyListening` = "Already listening...", `stopping` = "Stopping...". -/
inductive Status where
  | listening
  | didntCatch
  | serviceUnavailable
  | typingFailed (e : String)
  | stopped
  | started
  | alreadyListening
  | stopping
deriving DecidableEq, Repr

/-- Observable emissions of the program: a status message, a line appended
to the transcript box (`append_output_line`), or text typed into the
focused application (`pyautogui.write`). -/
inductive Event where
  | status (s : Status)
  | transcriptLine (t : String)
  | typed (t : String)
deriving DecidableEq, Repr

/-- Environment of one loop iteration: the value of `is_listening` observed
at the loop head, the acquisition/recognition outcome (`none` models a
`WaitTimeoutError` from `recogniser.listen`), the configuration read this
iteration, and the typing outcome (`some e` models `pyautogui.write`
raising exception `e`). -/
structure IterInput where
  listening : Bool
  acq : Option RecogOutcome
  cfg : Config
  typingErr : Option String
deriving DecidableEq, Repr

/-- The post-processing of one recognized utterance per the active
configuration (lines `if auto_punctuation.get(): ...` of the loop body). -/
def normalize (cfg : Config) (raw : String) : String :=
  let t1 := if cfg.auto_punctuation then punctuate raw else raw
  if cfg.auto_capital then auto_capitalise t1 else t1

/-- Events of one loop-body execution after the flag was observed true,
paired with whether the loop continues (`false` = the `break` on
`RequestError`). -/
def iterStep (it : IterInput) : List Event × Bool :=
  match it.acq with
  | none => ([], true)
  | some .unknownValue => ([.status .didntCatch], true)
  | some .requestError => ([.status .serviceUnavailable], false)
  | some (.success raw) =>
    let text := normalize it.cfg raw
    if text = "" then ([], true)
    else
      (Event.transcriptLine text ::
        (match it.typingErr with
         | none => [Event.typed text]
         | some e => [Event.status (.typingFailed e)]), true)

/-- The `while is_listening` loop: run iterations until the flag is
observed false, the script ends, or a fatal `break`; on exit emit the
single terminal "Stopped listening." status. -/
def loopRun : List IterInput → List Event
  | [] => [.status .stopped]
  | it :: rest =>
    if it.listening then
      let step := iterStep it
      if step.2 then step.1 ++ loopRun rest else step.1 ++ [.status .stopped]
    else [.status .stopped]

/-- `listen_and_type`: ambient-noise calibration, initial status, then the
loop; the event trace of one whole session. -/
def listen_and_type (script : List IterInput) : List Event :=
  Event.status .listening :: loopRun script

/-! ## Session control model

`start_listening_thread` / `stop_listening` and loop exits, as a
transition system over the shared globals `is_listening` and the number of
running `listen_and_type` threads.  Faithful detail: no loop exit path
writes `is_listening` — only `stop_listening` does. -/

/-- The process-wide shared state: the `is_listening` flag and how many
background listening threads are running. -/
structure Sys where
  is_listening : Bool
  threads : Nat
deriving DecidableEq, Repr

/-- Initial state: `is_listening = False`, no thread. -/
def sysInit : Sys := ⟨false, 0⟩

/-- Actions on the shared state: the two button handlers, a loop thread
exiting via the `RequestError` `break`, and a loop thread observing
`is_listening == False` at the loop head and exiting. -/
inductive UAct where
  | start
  | stop
  | loopSvcExit
  | loopStopExit
deriving DecidableEq, Repr

/-- One action of the session-control transition system, with the events
it emits. -/
def sysStep : Sys → UAct → Sys × List Event
  | s, .start =>
    if s.is_listening then (s, [.status .alreadyListening])
    else ({ is_listening := true, threads := s.threads + 1 }, [.status .started])
  | s, .stop => ({ s with is_listening := false }, [.status .stopping])
  | s, .loopSvcExit =>
    ({ s with threads := s.threads - 1 }, [.status .serviceUnavailable, .status .stopped])
  | s, .loopStopExit =>
    if s.is_listening then (s, [])
    else ({ s with threads := s.threads - 1 }, [.status .stopped])

/-- Run a sequence of actions, collecting the final state and all events. -/
def sysRun : Sys → List UAct → Sys × List Event
  | s, [] => (s, [])
  | s, a :: rest =>
    let step := sysStep s a
    let tail := sysRun step.1 rest
    (tail.1, step.2 ++ tail.2)

/-! ## Timed loop model

For the cancellation-latency claim: the same loop with explicit durations.
Each iteration starts with a loop-head check at the current time; its
events are stamped at the iteration's end time (acquisition duration plus
recognition duration).  The acquisition call is
`recogniser.listen(source, timeout=1, phrase_time_limit=6)`, so the
timeout bound re-checked by the claim is one time unit. -/

/-- `recogniser.listen` timeout: 1 time unit. -/
def acquireTimeout : Nat := 1

/-- One timed iteration: the untimed environment plus the duration of the
acquisition call and of the recognition call. -/
structure TIter where
  base : IterInput
  acqDur : Nat
  recogDur : Nat
deriving DecidableEq, Repr

/-- Duration of a whole iteration: acquisition, plus recognition when an
audio segment was captured. -/
def tIterDur (it : TIter) : Nat :=
  it.acqDur + (match it.base.acq with | none => 0 | some _ => it.recogDur)

/-- Timed loop run from time `t`: the loop-head check of each iteration
happens at the current time, events of the iteration are emitted at its
end time, and the terminal stopped status is emitted at loop exit. -/
def runT (t : Nat) : List TIter → List (Nat × Event)
  | [] => [(t, .status .stopped)]
  | it :: rest =>
    if it.base.listening then
      let e := t + tIterDur it
      let step := iterStep it.base
      (step.1.map (fun ev => (e, ev))) ++
        (if step.2 then runT e rest else [(e, .status .stopped)])
    else [(t, .status .stopped)]

/-- `stop()` at time `stop`: every iteration whose loop-head check happens
after `stop` observes `is_listening = False`.  (The iteration in flight at
`stop` time still completes.) -/
def stopOK (stop : Nat) : Nat → List TIter → Bool
  | _, [] => true
  | t, it :: rest =>
    (decide (t ≤ stop) || !it.base.listening) && stopOK stop (t + tIterDur it) rest

/-- The largest iteration duration of a script. -/
def maxIterDur (script : List TIter) : Nat :=
  script.foldr (fun it m => max (tIterDur it) m) 0

/-! ## Predicates used by the normalization proofs -/

/-- Lowercase ASCII letter. -/
def letterB (c : Char) : Bool := 97 ≤ c.toNat && c.toNat ≤ 122

/-- A character that may occur in a spoken-punctuation keyword: a
lowercase letter or a space. -/
def kwCharB (c : Char) : Bool := letterB c || c.toNat == 32

/-- The last character of a list is a lowercase letter. -/
def lastLetter (p : List Char) : Bool :=
  match p.getLast? with
  | some c => letterB c
  | none => false

/-- Well-formedness of a keyword of the replacement table: at least two
characters, all lowercase letters or spaces, first and last a letter. -/
def kwOK (k : List Char) : Bool :=
  2 ≤ k.length && k.all kwCharB &&
  (match k.head? with | some c => letterB c | none => false) && lastLetter k

/-- Well-formedness of a replacement symbol: a code point below 65, not a
space, not a digit — hence not a word character and not case-insensitively
equal to any keyword character. -/
def symOK (sym : Char) : Bool :=
  sym.toNat < 65 && sym.toNat != 32 && !(48 ≤ sym.toNat && sym.toNat ≤ 57)

/-- The word-ness of the character preceding the rest of a scan, after
consuming `l` with initial state `w`. -/
def wAfter (w : Bool) : List Char → Bool
  | [] => w
  | c :: cs => wAfter (wordChar c) cs

/-- No whitespace character immediately followed by a punctuation
character anywhere: exactly the strings on which `sbp` is the identity. -/
def noSP : List Char → Bool
  | [] => true
  | [_] => true
  | c :: d :: r => !(spaceChar c && punctChar d) && noSP (d :: r)

/-- Erase every whitespace character. -/
def stripWS (l : List Char) : List Char := l.filter (fun c => !spaceChar c)

/-- The claim's description of capitalization, on whitespace-erased text:
uppercase the very first character and every character that follows a
sentence terminator; every other character is kept verbatim.  This is the
comparison definition for the refinement claim about `auto_capitalise`. -/
def capCoreSpec : Bool → List Char → List Char
  | _, [] => []
  | b, c :: cs => (if b then upperChar c else c) :: capCoreSpec (termChar c) cs

/-- The last character is a sentence terminator. -/
def endsTermB (l : List Char) : Bool :=
  match l.getLast? with
  | some c => termChar c
  | none => false

/-- Shape of the raw `capA` output (before stripping): every terminator is
followed by one space and then a non-space character or the end; a space
is never followed by a terminator. -/
def capPre : List Char → Bool
  | [] => true
  | c :: cs =>
    if termChar c then
      match cs with
      | [] => false
      | d :: cs2 =>
        d == ' ' && (match cs2 with | [] => true | e :: _ => !spaceChar e) && capPre cs2
    else if spaceChar c then
      (match cs with | [] => true | d :: _ => !termChar d) && capPre cs
    else capPre cs

/-- Shape of the stripped, normalized string: every terminator is followed
by one space and then a non-space character, or ends the string; a space
is never followed by a terminator and never ends the string. -/
def capOK : List Char → Bool
  | [] => true
  | c :: cs =>
    if termChar c then
      match cs with
      | [] => true
      | d :: cs2 =>
        d == ' ' && (match cs2 with | [] => false | e :: _ => !spaceChar e) && capOK cs2
    else if spaceChar c then
      (match cs with | [] => false | d :: _ => !termChar d) && capOK cs
    else capOK cs

/-- No terminator immediately followed by whitespace: exactly the strings
`splitT` leaves in one piece. -/
def noTS : List Char → Bool
  | [] => true
  | [_] => true
  | c :: d :: r => !(termChar c && spaceChar d) && noTS (d :: r)

/-- No terminator anywhere. -/
def noTermB (t : List Char) : Bool := t.all (fun c => !termChar c)

/-- Empty or starting with a non-space character. -/
def headNS : List Char → Bool
  | [] => true
  | c :: _ => !spaceChar c

/-- Empty or ending with a non-space character. -/
def lastNS (t : List Char) : Bool :=
  match t.getLast? with
  | some c => !spaceChar c
  | none => true

/-- A well-formed final text part of the split: terminators may appear
only as its very last character, it does not end in whitespace, and a
final terminator is not preceded by whitespace. -/
def lastPartOK (t : List Char) : Bool :=
  noTermB t.dropLast && lastNS t && (!endsTermB t || lastNS t.dropLast)

/-- A well-formed non-final text part: no terminator at all and no
trailing whitespace. -/
def midPartOK (t : List Char) : Bool := noTermB t && lastNS t

/-- A delimiter kept by the split: a terminator followed by one space. -/
def delimOK : List Char → Bool
  | [t, s] => termChar t && s == ' '
  | _ => false

/-- Well-formed alternating part list; the flag records whether the first
part follows a delimiter (then it must not start with whitespace, and a
final part must be nonempty). -/
def partsOK : Bool → List (List Char) → Bool
  | _, [] => false
  | ad, [t] => lastPartOK t && (!ad || (headNS t && !t.isEmpty))
  | ad, t :: d :: rest =>
    midPartOK t && (!ad || headNS t) && delimOK d && partsOK true rest

/-- Concatenation of an alternating part list. -/
def joinParts : List (List Char) → List Char
  | [] => []
  | [t] => t
  | t :: d :: rest => t ++ d ++ joinParts rest

/-- Capitalize each text part of an alternating part list. -/
def capParts : List (List Char) → List (List Char)
  | [] => []
  | [t] => [capSent t]
  | t :: d :: rest => capSent t :: d :: capParts rest

/-- The first part is empty or starts with a non-space character. -/
def headFirst : List (List Char) → Bool
  | [] => true
  | t :: _ => headNS t

/-- Structural version of dropping trailing whitespace. -/
def rstripL : List Char → List Char
  | [] => []
  | c :: cs =>
    match rstripL cs with
    | [] => if spaceChar c then [] else [c]
    | r => c :: r

/-! ## Claim theorems on the session loop and session control -/

/-- C4: for the spoken input "hello comma world full stop how are you
question mark", `punctuate` yields "hello, world. how are you?", applying
`auto_capitalise` to that yields "Hello, world. How are you?", and keyword
matching is case-insensitive: `punctuate "full STOP"` and
`punctuate "full stop"` both yield ".". -/
theorem punctuate_capitalise_example :
    punctuate "hello comma world full stop how are you question mark" =
      "hello, world. how are you?" ∧
    auto_capitalise "hello, world. how are you?" = "Hello, world. How are you?" ∧
    punctuate "full STOP" = "." ∧ punctuate "full stop" = "." := by
  refine ⟨?_, ?_, ?_, ?_⟩ <;> decide

/-- C5: an iteration whose recognition reports a connectivity failure
emits the `ServiceUnavailable` status and terminates the loop with exactly
one terminal stopped status, whatever the rest of the script holds; an
iteration reporting no confident transcription emits `NoSpeechDetected`
and the loop continues with the rest of the script. -/
theorem service_unavailable_fatal_noconfident_continue
    (it it2 : IterInput) (rest : List IterInput)
    (h1 : it.listening = true) (h2 : it.acq = some .requestError)
    (h3 : it2.listening = true) (h4 : it2.acq = some .unknownValue) :
    loopRun (it :: rest) = [.status .serviceUnavailable, .status .stopped] ∧
    (loopRun (it :: rest)).count (Event.status .stopped) = 1 ∧
    loopRun (it2 :: rest) = .status .didntCatch :: loopRun rest := by
  refine ⟨?_, ?_, ?_⟩ <;> simp [loopRun, iterStep, h1, h2, h3, h4, List.count_cons]

/-- Witness for C5 at a concrete script. -/
theorem service_unavailable_fatal_witness :
    loopRun [⟨true, some .requestError, ⟨false, false⟩, none⟩] =
      [.status .serviceUnavailable, .status .stopped] ∧
    (loopRun [(⟨true, some .requestError, ⟨false, false⟩, none⟩ : IterInput)]).count
      (Event.status .stopped) = 1 ∧
    loopRun [⟨true, some .unknownValue, ⟨false, false⟩, none⟩] =
      .status .didntCatch :: loopRun [] :=
  service_unavailable_fatal_noconfident_continue
    ⟨true, some .requestError, ⟨false, false⟩, none⟩
    ⟨true, some .unknownValue, ⟨false, false⟩, none⟩ [] rfl rfl rfl rfl

/-- C7: when typing injection fails for a recognized, normalized, nonempty
utterance, the transcript line is still appended (before the injection
attempt), the failure surfaces as a `TypingFailed` status, and the loop
continues with the rest of the script. -/
theorem typing_failure_nonfatal
    (it : IterInput) (rest : List IterInput) (raw e : String)
    (h1 : it.listening = true) (h2 : it.acq = some (.success raw))
    (h3 : normalize it.cfg raw ≠ "") (h4 : it.typingErr = some e) :
    loopRun (it :: rest) =
      .transcriptLine (normalize it.cfg raw) :: .status (.typingFailed e) ::
        loopRun rest := by
  simp [loopRun, iterStep, h1, h2, h3, h4]

/-- Witness for C7 at a concrete script. -/
theorem typing_failure_nonfatal_witness :
    loopRun [⟨true, some (.success "hi"), ⟨false, false⟩, some "err"⟩] =
      .transcriptLine (normalize ⟨false, false⟩ "hi") :: .status (.typingFailed "err") ::
        loopRun [] :=
  typing_failure_nonfatal ⟨true, some (.success "hi"), ⟨false, false⟩, some "err"⟩ []
    "hi" "err" rfl rfl (by decide) rfl

/-- C10: an utterance that normalizes to the empty string produces no
event at all: no transcript line, no typing, no status; the loop just
continues. -/
theorem empty_normalized_emits_nothing
    (it : IterInput) (rest : List IterInput) (raw : String)
    (h1 : it.listening = true) (h2 : it.acq = some (.success raw))
    (h3 : normalize it.cfg raw = "") :
    iterStep it = ([], true) ∧ loopRun (it :: rest) = loopRun rest := by
  constructor <;> simp [loopRun, iterStep, h1, h2, h3]

/-- Witness for C10: with punctuation enabled, the raw utterance " "
normalizes to the empty string and the loop emits nothing for it. -/
theorem empty_normalized_emits_nothing_witness :
    iterStep ⟨true, some (.success " "), ⟨true, true⟩, none⟩ = ([], true) ∧
    loopRun [⟨true, some (.success " "), ⟨true, true⟩, none⟩] = loopRun [] :=
  empty_normalized_emits_nothing ⟨true, some (.success " "), ⟨true, true⟩, none⟩ [] " "
    rfl rfl (by decide)

/-- C3: evaluation at the failing input.  After `start`, a loop exit via
the `RequestError` `break`, and a second `start`, the shared state still
has `is_listening = true` with no thread running, and the second `start`
only reports "Already listening..." instead of beginning a new session:
the loop exit path never resets the flag to Idle. -/
theorem start_unavailable_after_service_failure :
    sysRun sysInit [.start, .loopSvcExit, .start] =
      (⟨true, 0⟩, [.status .started, .status .serviceUnavailable, .status .stopped,
                   .status .alreadyListening]) := by
  decide

/-- C6 counterexample: the action sequence start, stop, start — with the
first loop not yet having observed the cleared flag — reaches a state
that is Listening (`is_listening = true`) with two background loops
running, refuting "at most one background loop is ever active while the
state is not Idle". -/
theorem two_loops_after_stop_start :
    (sysRun sysInit [.start, .stop, .start]).1.is_listening = true ∧
    (sysRun sysInit [.start, .stop, .start]).1.threads = 2 := by
  decide

/-- C6 amended: `start()` is idempotent — when already listening it
changes no state and starts no loop, only emitting a status — so two
consecutive `start()` calls from Idle leave exactly one loop; but the
at-most-one-loop invariant can be defeated by a stop/start pair racing
the old loop (see the counterexample). -/
theorem start_idempotent_amended (s : Sys) (h : s.is_listening = true) :
    sysStep s .start = (s, [.status .alreadyListening]) ∧
    (sysRun sysInit [.start, .start]).1 = ⟨true, 1⟩ ∧
    (sysRun sysInit [.start, .start]).2 = [.status .started, .status .alreadyListening] := by
  refine ⟨?_, by decide, by decide⟩
  simp [sysStep, h]

/-- Witness for the amended C6 at a concrete listening state. -/
theorem start_idempotent_amended_witness :
    sysStep ⟨true, 1⟩ .start = (⟨true, 1⟩, [.status .alreadyListening]) ∧
    (sysRun sysInit [.start, .start]).1 = ⟨true, 1⟩ ∧
    (sysRun sysInit [.start, .start]).2 = [.status .started, .status .alreadyListening] :=
  start_idempotent_amended ⟨true, 1⟩ rfl

/-- C9 counterexample: stop at time 0, with one iteration in flight whose
acquisition takes 1 unit and whose recognition takes 10: the stop
discipline holds, yet a transcript event is emitted at time 11, more than
one acquisition-timeout interval (and more than one whole acquisition
window) after the stop call. -/
theorem event_after_stop_beyond_acquisition_bound :
    stopOK 0 0 [⟨⟨true, some (.success "hi"), ⟨false, false⟩, none⟩, 1, 10⟩] = true ∧
    0 + acquireTimeout < 11 ∧
    (11, Event.transcriptLine "hi") ∈
      runT 0 [⟨⟨true, some (.success "hi"), ⟨false, false⟩, none⟩, 1, 10⟩] := by
  decide

/-- C9 amended: after `stop()` the loop exits at its next head check, so
every event — including the terminal stopped status — is emitted no later
than the stop time plus the duration of one full in-flight iteration
(acquisition plus the transcription call), not within one
acquisition-timeout interval. -/
theorem stop_latency_amended (stop t0 M : Nat) (script : List TIter)
    (hM : ∀ i ∈ script, tIterDur i ≤ M)
    (hs : stopOK stop t0 script = true) (ht : t0 ≤ stop + M) :
    ∀ p ∈ runT t0 script, p.1 ≤ stop + M := by
  induction script generalizing t0 with
  | nil =>
    intro p hp
    simp [runT] at hp
    simp [hp, ht]
  | cons it rest ih =>
    intro p hp
    simp only [stopOK, Bool.and_eq_true, Bool.or_eq_true, decide_eq_true_eq,
      Bool.not_eq_true'] at hs
    by_cases hl : it.base.listening = true
    · have hts : t0 ≤ stop := by
        rcases hs.1 with h | h
        · exact h
        · rw [hl] at h; exact absurd h (by simp)
      have hd : tIterDur it ≤ M := hM it (by simp)
      have hnext : t0 + tIterDur it ≤ stop + M := by omega
      simp only [runT, hl, if_true, List.mem_append] at hp
      rcases hp with hp | hp
      · rcases List.mem_map.1 hp with ⟨ev, _, hev⟩
        have : p.1 = t0 + tIterDur it := by rw [← hev]
        omega
      · by_cases hc : (iterStep it.base).2 = true
        · rw [hc] at hp
          simp at hp
          exact ih (t0 + tIterDur it) (fun i hi => hM i (List.mem_cons_of_mem it hi))
            hs.2 hnext p hp
        · simp only [Bool.not_eq_true] at hc
          rw [hc] at hp
          simp at hp
          simp [hp, hnext]
    · simp only [Bool.not_eq_true] at hl
      simp only [runT, hl, if_false] at hp
      simp at hp
      simp [hp, ht]

/-! ## Character-level lemmas -/

theorem char_toNat_inj {c d : Char} (h : c.toNat = d.toNat) : c = d := by
  have h2 := congrArg Char.ofNat h
  rwa [Char.ofNat_toNat, Char.ofNat_toNat] at h2

set_option maxRecDepth 4000 in
theorem char_ofNat_toNat_small : ∀ n, n < 256 → (Char.ofNat n).toNat = n := by decide

theorem wordChar_iff {c : Char} : wordChar c = true ↔
    (65 ≤ c.toNat ∧ c.toNat ≤ 90) ∨ (97 ≤ c.toNat ∧ c.toNat ≤ 122) ∨
    (48 ≤ c.toNat ∧ c.toNat ≤ 57) ∨ c.toNat = 95 := by
  simp only [wordChar, Bool.or_eq_true, Bool.and_eq_true, decide_eq_true_eq, beq_iff_eq]
  constructor
  · rintro (((h | h) | h) | h)
    · exact Or.inl h
    · exact Or.inr (Or.inl h)
    · exact Or.inr (Or.inr (Or.inl h))
    · subst h; exact Or.inr (Or.inr (Or.inr rfl))
  · rintro (h | h | h | h)
    · exact Or.inl (Or.inl (Or.inl h))
    · exact Or.inl (Or.inl (Or.inr h))
    · exact Or.inl (Or.inr h)
    · exact Or.inr (char_toNat_inj h)

theorem spaceChar_iff {c : Char} : spaceChar c = true ↔
    c.toNat = 32 ∨ (9 ≤ c.toNat ∧ c.toNat ≤ 13) := by
  simp [spaceChar]

theorem punctChar_iff {c : Char} : punctChar c = true ↔
    c.toNat = 44 ∨ c.toNat = 46 ∨ c.toNat = 33 ∨ c.toNat = 63 := by
  simp only [punctChar, Bool.or_eq_true, beq_iff_eq]
  constructor
  · rintro (((h | h) | h) | h) <;> subst h <;> simp
  · rintro (h | h | h | h)
    · exact Or.inl (Or.inl (Or.inl (char_toNat_inj h)))
    · exact Or.inl (Or.inl (Or.inr (char_toNat_inj h)))
    · exact Or.inl (Or.inr (char_toNat_inj h))
    · exact Or.inr (char_toNat_inj h)

theorem termChar_iff {c : Char} : termChar c = true ↔
    c.toNat = 46 ∨ c.toNat = 63 ∨ c.toNat = 33 := by
  simp only [termChar, Bool.or_eq_true, beq_iff_eq]
  constructor
  · rintro ((h | h) | h) <;> subst h <;> simp
  · rintro (h | h | h)
    · exact Or.inl (Or.inl (char_toNat_inj h))
    · exact Or.inl (Or.inr (char_toNat_inj h))
    · exact Or.inr (char_toNat_inj h)

theorem space_not_word {c : Char} (h : spaceChar c = true) : wordChar c = false := by
  rw [spaceChar_iff] at h
  rw [Bool.eq_false_iff]
  intro h2
  rw [wordChar_iff] at h2
  omega

theorem punct_not_word {c : Char} (h : punctChar c = true) : wordChar c = false := by
  rw [punctChar_iff] at h
  rw [Bool.eq_false_iff]
  intro h2
  rw [wordChar_iff] at h2
  omega

theorem punct_not_space {c : Char} (h : punctChar c = true) : spaceChar c = false := by
  rw [punctChar_iff] at h
  rw [Bool.eq_false_iff]
  intro h2
  rw [spaceChar_iff] at h2
  omega

theorem sym_not_word {sym : Char} (h : symOK sym = true) : wordChar sym = false := by
  simp only [symOK, Bool.and_eq_true, decide_eq_true_eq, Bool.not_eq_true',
    Bool.and_eq_false_iff, bne_iff_ne, Ne, decide_eq_false_iff_not] at h
  rw [Bool.eq_false_iff]
  intro h2
  rw [wordChar_iff] at h2
  omega

theorem letter_of_kwChar_not_space {q : Char} (hq : kwCharB q = true)
    (hs : q.toNat ≠ 32) : letterB q = true := by
  simp only [kwCharB, Bool.or_eq_true, beq_iff_eq] at hq
  rcases hq with h | h
  · exact h
  · exact absurd h hs

theorem ciEq_letter_word {q c : Char} (hq : letterB q = true) (h : ciEq q c = true) :
    wordChar c = true := by
  simp only [letterB, Bool.and_eq_true, decide_eq_true_eq] at hq
  simp only [ciEq, lowerN, beq_iff_eq] at h
  rw [wordChar_iff]
  split_ifs at h <;> omega

theorem ciEq_sym_false {q sym : Char} (hs : symOK sym = true) (hq : kwCharB q = true) :
    ciEq q sym = false := by
  simp only [symOK, Bool.and_eq_true, decide_eq_true_eq, Bool.not_eq_true',
    Bool.and_eq_false_iff, bne_iff_ne, Ne, decide_eq_false_iff_not] at hs
  simp only [kwCharB, letterB, Bool.or_eq_true, Bool.and_eq_true, decide_eq_true_eq,
    beq_iff_eq] at hq
  rw [Bool.eq_false_iff]
  simp only [ciEq, lowerN, Ne, beq_iff_eq]
  split_ifs <;> omega

theorem ciEq_punct_false {q p : Char} (hq : kwCharB q = true) (hp : punctChar p = true) :
    ciEq q p = false := by
  rw [punctChar_iff] at hp
  simp only [kwCharB, letterB, Bool.or_eq_true, Bool.and_eq_true, decide_eq_true_eq,
    beq_iff_eq] at hq
  rw [Bool.eq_false_iff]
  simp only [ciEq, lowerN, Ne, beq_iff_eq]
  split_ifs <;> omega

/-! ## Lemmas about the keyword matcher and `subA` -/

theorem matchCIrest_drop :
    ∀ p l r, matchCIrest p l = some r → r = l.drop p.length := by
  intro p
  induction p with
  | nil =>
    intro l r h
    simp only [matchCIrest, Option.some_inj] at h
    simp [← h]
  | cons q qs ih =>
    intro l r h
    match l with
    | [] => simp [matchCIrest] at h
    | c :: cs =>
      simp only [matchCIrest] at h
      split at h
      · simpa using ih cs r h
      · exact absurd h (by simp)

theorem matchCIrest_length :
    ∀ p l r, matchCIrest p l = some r → p.length + r.length = l.length := by
  intro p
  induction p with
  | nil =>
    intro l r h
    simp only [matchCIrest, Option.some_inj] at h
    simp [← h]
  | cons q qs ih =>
    intro l r h
    match l with
    | [] => simp [matchCIrest] at h
    | c :: cs =>
      simp only [matchCIrest] at h
      split at h
      · have h2 := ih cs r h
        simp only [List.length_cons]
        omega
      · exact absurd h (by simp)

theorem matchCIrest_append :
    ∀ p l1 l2 r, matchCIrest p l1 = some r →
      matchCIrest p (l1 ++ l2) = some (r ++ l2) := by
  intro p
  induction p with
  | nil =>
    intro l1 l2 r h
    simp only [matchCIrest, Option.some_inj] at h
    simp [matchCIrest, h]
  | cons q qs ih =>
    intro l1 l2 r h
    match l1 with
    | [] => simp [matchCIrest] at h
    | c :: cs =>
      simp only [matchCIrest] at h
      split at h
      · simp only [List.cons_append, matchCIrest]
        rw [if_pos (by assumption)]
        exact ih cs l2 r h
      · exact absurd h (by simp)

theorem headOcc_cons {q c : Char} {qs cs : List Char} (h : ciEq q c = true) :
    headOcc (q :: qs) (c :: cs) = headOcc qs cs := by
  simp [headOcc, matchCIrest, h]

theorem headOcc_cons_false {q c : Char} {qs cs : List Char} (h : ciEq q c = false) :
    headOcc (q :: qs) (c :: cs) = false := by
  simp [headOcc, matchCIrest, h]

theorem headOcc_nil_right {q : Char} {qs : List Char} : headOcc (q :: qs) [] = false := by
  simp [headOcc, matchCIrest]

theorem subA_skip (k : List Char) (sym : Char) :
    ∀ n w l, subA k sym n w l = subA k sym 0 (wAfter w (l.take n)) (l.drop n) := by
  intro n
  induction n with
  | zero => intro w l; simp [wAfter]
  | succ n ih =>
    intro w l
    match l with
    | [] => simp [subA, wAfter]
    | c :: cs =>
      show subA k sym n (wordChar c) cs = _
      rw [ih, List.take_succ_cons, List.drop_succ_cons]
      rfl

theorem subA_after_match (k : List Char) (sym : Char) :
    ∀ p cs rest w, lastLetter p = true → matchCIrest p cs = some rest →
      subA k sym p.length w cs = subA k sym 0 true rest := by
  intro p
  induction p with
  | nil => intro cs rest w hl; simp [lastLetter] at hl
  | cons q qs ih =>
    intro cs rest w hl hm
    match cs with
    | [] => simp [matchCIrest] at hm
    | c :: cs' =>
      simp only [matchCIrest] at hm
      by_cases hq : ciEq q c = true
      · rw [if_pos hq] at hm
        cases qs with
        | nil =>
          simp only [matchCIrest, Option.some_inj] at hm
          subst hm
          have hw : wordChar c = true :=
            ciEq_letter_word (by simpa [lastLetter] using hl) hq
          show subA k sym 0 (wordChar c) cs' = subA k sym 0 true cs'
          rw [hw]
        | cons q2 qs2 =>
          have hl2 : lastLetter (q2 :: qs2) = true := by
            simpa [lastLetter] using hl
          show subA k sym ((q2 :: qs2).length) (wordChar c) cs' = _
          exact ih cs' rest (wordChar c) hl2 hm
      · rw [if_neg hq] at hm
        exact absurd hm (by simp)

theorem subA_no_match {k : List Char} {sym c : Char} {cs : List Char} {w : Bool}
    (h : w = true ∨ headOcc k (c :: cs) = false) :
    subA k sym 0 w (c :: cs) = c :: subA k sym 0 (wordChar c) cs := by
  rcases h with h | h
  · simp [subA, h]
  · cases w <;> simp [subA, h]

theorem subA_match {k : List Char} {sym c : Char} {cs : List Char}
    (h : headOcc k (c :: cs) = true) :
    subA k sym 0 false (c :: cs) = sym :: subA k sym (k.length - 1) true cs := by
  simp [subA, h]

theorem hasKW_step {k : List Char} {w : Bool} {c : Char} {cs : List Char}
    (h : hasKW k w (c :: cs) = false) : hasKW k (wordChar c) cs = false := by
  simp only [hasKW, Bool.or_eq_false_iff] at h
  exact h.2

theorem hasKW_head {k : List Char} {c : Char} {cs : List Char}
    (h : hasKW k false (c :: cs) = false) : headOcc k (c :: cs) = false := by
  simp only [hasKW, Bool.or_eq_false_iff, Bool.and_eq_false_iff, Bool.not_false] at h
  rcases h.1 with h1 | h1
  · exact absurd h1 (by simp)
  · exact h1

theorem hasKW_cons {k : List Char} {w : Bool} {c : Char} {cs : List Char} :
    hasKW k w (c :: cs) = ((!w && headOcc k (c :: cs)) || hasKW k (wordChar c) cs) := rfl

theorem hasKW_down (k : List Char) :
    ∀ p l rest w, lastLetter p = true → matchCIrest p l = some rest →
      hasKW k w l = false → hasKW k true rest = false := by
  intro p
  induction p with
  | nil => intro l rest w hl; simp [lastLetter] at hl
  | cons q qs ih =>
    intro l rest w hl hm hno
    match l with
    | [] => simp [matchCIrest] at hm
    | c :: cs =>
      simp only [matchCIrest] at hm
      by_cases hq : ciEq q c = true
      · rw [if_pos hq] at hm
        have hstep := hasKW_step hno
        cases qs with
        | nil =>
          simp only [matchCIrest, Option.some_inj] at hm
          subst hm
          have hw : wordChar c = true :=
            ciEq_letter_word (by simpa [lastLetter] using hl) hq
          rwa [hw] at hstep
        | cons q2 qs2 =>
          have hl2 : lastLetter (q2 :: qs2) = true := by
            simpa [lastLetter] using hl
          exact ih cs rest (wordChar c) hl2 hm hstep
      · rw [if_neg hq] at hm
        exact absurd hm (by simp)

theorem lastLetter_cons (q : Char) {qs : List Char} (h : qs ≠ []) :
    lastLetter (q :: qs) = lastLetter qs := by
  cases qs with
  | nil => exact absurd rfl h
  | cons a as => simp [lastLetter]

/-- Transfer of a whole-word occurrence at the front of a substitution
output back to the input: the replacement symbol cannot participate in a
keyword-shaped occurrence, so the occurrence was already present. -/
theorem headOcc_subA (k' : List Char) (sym' : Char) (hsym : symOK sym' = true) :
    ∀ p, p.all kwCharB = true → (p ≠ [] → lastLetter p = true) →
    ∀ l w, (p = [] → w = true) →
      headOcc p (subA k' sym' 0 w l) = true → headOcc p l = true := by
  intro p
  induction p with
  | nil =>
    intro _ _ l w hw hocc
    have hw2 := hw rfl
    subst hw2
    match l with
    | [] => simpa [headOcc, matchCIrest] using hocc
    | c :: cs =>
      rw [subA_no_match (Or.inl rfl)] at hocc
      simpa [headOcc, matchCIrest, endB] using hocc
  | cons q qs ih =>
    intro hall hlast l w hw hocc
    match l with
    | [] =>
      rw [show subA k' sym' 0 w [] = [] from rfl] at hocc
      exact absurd hocc (by simp [headOcc, matchCIrest])
    | c :: cs =>
      have hq_all : kwCharB q = true ∧ qs.all kwCharB = true := by
        simpa using hall
      have key : headOcc (q :: qs) (c :: subA k' sym' 0 (wordChar c) cs) = true →
          headOcc (q :: qs) (c :: cs) = true := by
        intro hocc2
        by_cases hq : ciEq q c = true
        · rw [headOcc_cons hq] at hocc2 ⊢
          refine ih hq_all.2 ?_ cs (wordChar c) ?_ hocc2
          · intro hne
            rw [← lastLetter_cons q hne]
            exact hlast (by simp)
          · intro hqs
            subst hqs
            have hqL : letterB q = true := by
              have h2 := hlast (by simp)
              simpa [lastLetter] using h2
            exact ciEq_letter_word hqL hq
        · rw [headOcc_cons_false (Bool.eq_false_iff.2 hq)] at hocc2
          exact absurd hocc2 (by simp)
      by_cases hw2 : w = true
      · subst hw2
        rw [subA_no_match (Or.inl rfl)] at hocc
        exact key hocc
      · have hwf : w = false := Bool.eq_false_iff.2 hw2
        subst hwf
        by_cases hm : headOcc k' (c :: cs) = true
        · rw [subA_match hm] at hocc
          rw [headOcc_cons_false (ciEq_sym_false hsym hq_all.1)] at hocc
          exact absurd hocc (by simp)
        · rw [subA_no_match (Or.inr (Bool.eq_false_iff.2 hm))] at hocc
          exact key hocc

/-- After one substitution pass for keyword `k`, the output contains no
whole-word case-insensitive occurrence of `k` any more. -/
theorem hasKW_subA_self (k : List Char) (sym : Char) (hk : kwOK k = true)
    (hsym : symOK sym = true) : ∀ l w, hasKW k w (subA k sym 0 w l) = false := by
  simp only [kwOK, Bool.and_eq_true, decide_eq_true_eq] at hk
  obtain ⟨⟨⟨hlen, hall⟩, hhd⟩, hlast⟩ := hk
  cases k with
  | nil => simp at hlen
  | cons k0 ktail =>
    have hk0L : letterB k0 = true := by simpa using hhd
    have hk0 : kwCharB k0 = true := by
      simp only [kwCharB, Bool.or_eq_true]
      exact Or.inl hk0L
    have hkt_ne : ktail ≠ [] := by
      cases ktail with
      | nil => simp at hlen
      | cons a as => simp
    have hlast2 : lastLetter ktail = true := by
      rwa [lastLetter_cons k0 hkt_ne] at hlast
    have hall2 : (k0 :: ktail).all kwCharB = true := hall
    have main : ∀ n l w, l.length ≤ n →
        hasKW (k0 :: ktail) w (subA (k0 :: ktail) sym 0 w l) = false := by
      intro n
      induction n with
      | zero =>
        intro l w hl
        have hl2 : l = [] := List.length_eq_zero.1 (Nat.le_zero.1 hl)
        subst hl2
        simp [subA, hasKW]
      | succ n ih =>
        intro l w hl
        match l with
        | [] => simp [subA, hasKW]
        | c :: cs =>
          by_cases hcase : w = false ∧ headOcc (k0 :: ktail) (c :: cs) = true
          · obtain ⟨hwf, hm⟩ := hcase
            subst hwf
            rw [subA_match hm]
            rcases hre : matchCIrest (k0 :: ktail) (c :: cs) with _ | rest
            · unfold headOcc at hm
              rw [hre] at hm
              exact absurd hm (by simp)
            · have hend : endB rest = true := by
                unfold headOcc at hm
                rwa [hre] at hm
              have hq : ciEq k0 c = true ∧ matchCIrest ktail cs = some rest := by
                simp only [matchCIrest] at hre
                by_cases h2 : ciEq k0 c = true
                · rw [if_pos h2] at hre
                  exact ⟨h2, hre⟩
                · rw [if_neg h2] at hre
                  exact absurd hre (by simp)
              have hskip : subA (k0 :: ktail) sym ((k0 :: ktail).length - 1) true cs =
                  subA (k0 :: ktail) sym 0 true rest := by
                have hl3 : (k0 :: ktail).length - 1 = ktail.length := by simp
                rw [hl3]
                exact subA_after_match _ _ ktail cs rest true hlast2 hq.2
              rw [hskip, hasKW_cons,
                headOcc_cons_false (ciEq_sym_false hsym hk0), sym_not_word hsym]
              simp only [Bool.and_false, Bool.false_or]
              have hrest_len : ktail.length + rest.length = cs.length :=
                matchCIrest_length ktail cs rest hq.2
              rcases rest with _ | ⟨r, rs⟩
              · simp [subA, hasKW]
              · have hrw : wordChar r = false := by simpa [endB] using hend
                rw [subA_no_match (Or.inl rfl), hrw, hasKW_cons, hrw]
                have hqr : ciEq k0 r = false := by
                  rw [Bool.eq_false_iff]
                  intro h2
                  have h3 := ciEq_letter_word hk0L h2
                  rw [h3] at hrw
                  exact absurd hrw (by simp)
                rw [headOcc_cons_false hqr]
                simp only [Bool.and_false, Bool.false_or]
                refine ih rs false ?_
                simp only [List.length_cons] at hrest_len hl
                omega
          · have hnm : w = true ∨ headOcc (k0 :: ktail) (c :: cs) = false := by
              by_cases hw2 : w = true
              · exact Or.inl hw2
              · right
                rw [Bool.eq_false_iff]
                intro h2
                exact hcase ⟨Bool.eq_false_iff.2 hw2, h2⟩
            rw [subA_no_match hnm, hasKW_cons]
            have htail := ih cs (wordChar c) (by simpa using Nat.le_of_succ_le_succ hl)
            rw [htail]
            cases w with
            | true => simp
            | false =>
              have hmf : headOcc (k0 :: ktail) (c :: cs) = false := by
                rcases hnm with h2 | h2
                · exact absurd h2 (by simp)
                · exact h2
              have hof : headOcc (k0 :: ktail)
                  (c :: subA (k0 :: ktail) sym 0 (wordChar c) cs) = false := by
                rw [Bool.eq_false_iff]
                intro h2
                rw [← subA_no_match (Or.inr hmf)] at h2
                have h3 := headOcc_subA (k0 :: ktail) sym hsym (k0 :: ktail) hall2
                  (fun _ => hlast) (c :: cs) false (by simp) h2
                rw [h3] at hmf
                exact absurd hmf (by simp)
              rw [hof]
              simp
    intro l w
    exact main l.length l w le_rfl

/-- Substituting a different keyword `k'` cannot introduce a whole-word
occurrence of `k`: the symbol is not keyword-shaped, and the boundaries of
a surviving occurrence transfer back to the input. -/
theorem hasKW_subA_other (k k' : List Char) (sym' : Char) (hk : kwOK k = true)
    (hk' : kwOK k' = true) (hsym' : symOK sym' = true) :
    ∀ l w, hasKW k w l = false → hasKW k w (subA k' sym' 0 w l) = false := by
  simp only [kwOK, Bool.and_eq_true, decide_eq_true_eq] at hk hk'
  obtain ⟨⟨⟨hlen, hall⟩, hhd⟩, hlast⟩ := hk
  obtain ⟨⟨⟨hlen2, hall2⟩, hhd2⟩, hlast2⟩ := hk'
  cases k with
  | nil => simp at hlen
  | cons k0 ktail =>
  cases k' with
  | nil => simp at hlen2
  | cons q0 qtail =>
    have hk0L : letterB k0 = true := by simpa using hhd
    have hk0 : kwCharB k0 = true := by
      simp only [kwCharB, Bool.or_eq_true]
      exact Or.inl hk0L
    have hqt_ne : qtail ≠ [] := by
      cases qtail with
      | nil => simp at hlen2
      | cons a as => simp
    have hlastq : lastLetter qtail = true := by
      rwa [lastLetter_cons q0 hqt_ne] at hlast2
    have main : ∀ n l w, l.length ≤ n → hasKW (k0 :: ktail) w l = false →
        hasKW (k0 :: ktail) w (subA (q0 :: qtail) sym' 0 w l) = false := by
      intro n
      induction n with
      | zero =>
        intro l w hl _
        have hl2 : l = [] := List.length_eq_zero.1 (Nat.le_zero.1 hl)
        subst hl2
        simp [subA, hasKW]
      | succ n ih =>
        intro l w hl hno
        match l with
        | [] => simp [subA, hasKW]
        | c :: cs =>
          by_cases hcase : w = false ∧ headOcc (q0 :: qtail) (c :: cs) = true
          · obtain ⟨hwf, hm⟩ := hcase
            subst hwf
            rw [subA_match hm]
            rcases hre : matchCIrest (q0 :: qtail) (c :: cs) with _ | rest
            · unfold headOcc at hm
              rw [hre] at hm
              exact absurd hm (by simp)
            · have hend : endB rest = true := by
                unfold headOcc at hm
                rwa [hre] at hm
              have hq : ciEq q0 c = true ∧ matchCIrest qtail cs = some rest := by
                simp only [matchCIrest] at hre
                by_cases h2 : ciEq q0 c = true
                · rw [if_pos h2] at hre
                  exact ⟨h2, hre⟩
                · rw [if_neg h2] at hre
                  exact absurd hre (by simp)
              have hskip : subA (q0 :: qtail) sym' ((q0 :: qtail).length - 1) true cs =
                  subA (q0 :: qtail) sym' 0 true rest := by
                have hl3 : (q0 :: qtail).length - 1 = qtail.length := by simp
                rw [hl3]
                exact subA_after_match _ _ qtail cs rest true hlastq hq.2
              rw [hskip, hasKW_cons,
                headOcc_cons_false (ciEq_sym_false hsym' hk0), sym_not_word hsym']
              simp only [Bool.and_false, Bool.false_or]
              have hrest_no : hasKW (k0 :: ktail) true rest = false :=
                hasKW_down (k0 :: ktail) (q0 :: qtail) (c :: cs) rest false hlast2 hre hno
              have hrest_len : qtail.length + rest.length = cs.length :=
                matchCIrest_length qtail cs rest hq.2
              rcases rest with _ | ⟨r, rs⟩
              · simp [subA, hasKW]
              · have hrw : wordChar r = false := by simpa [endB] using hend
                rw [subA_no_match (Or.inl rfl), hrw, hasKW_cons, hrw]
                have hqr : ciEq k0 r = false := by
                  rw [Bool.eq_false_iff]
                  intro h2
                  have h3 := ciEq_letter_word hk0L h2
                  rw [h3] at hrw
                  exact absurd hrw (by simp)
                rw [headOcc_cons_false hqr]
                simp only [Bool.and_false, Bool.false_or]
                have hrs_no : hasKW (k0 :: ktail) false rs = false := by
                  rw [hasKW_cons] at hrest_no
                  simp only [Bool.not_true, Bool.false_and, Bool.false_or] at hrest_no
                  rwa [hrw] at hrest_no
                refine ih rs false ?_ hrs_no
                simp only [List.length_cons] at hrest_len hl
                omega
          · have hnm : w = true ∨ headOcc (q0 :: qtail) (c :: cs) = false := by
              by_cases hw2 : w = true
              · exact Or.inl hw2
              · right
                rw [Bool.eq_false_iff]
                intro h2
                exact hcase ⟨Bool.eq_false_iff.2 hw2, h2⟩
            rw [subA_no_match hnm, hasKW_cons]
            have htail := ih cs (wordChar c)
              (by simpa using Nat.le_of_succ_le_succ hl) (hasKW_step hno)
            rw [htail]
            cases w with
            | true => simp
            | false =>
              have hof : headOcc (k0 :: ktail)
                  (c :: subA (q0 :: qtail) sym' 0 (wordChar c) cs) = false := by
                rw [Bool.eq_false_iff]
                intro h2
                rw [← subA_no_match hnm] at h2
                have h3 := headOcc_subA (q0 :: qtail) sym' hsym' (k0 :: ktail) hall
                  (fun _ => hlast) (c :: cs) false (by simp) h2
                have h4 := hasKW_head hno
                rw [h3] at h4
                exact absurd h4 (by simp)
              rw [hof]
              simp
    intro l w
    exact main l.length l w le_rfl

/-- A substitution pass is the identity on a string containing no
whole-word occurrence of its keyword. -/
theorem subA_id (k : List Char) (sym : Char) :
    ∀ l w, hasKW k w l = false → subA k sym 0 w l = l := by
  intro l
  induction l with
  | nil => intro w _; rfl
  | cons c cs ih =>
    intro w h
    have hnm : w = true ∨ headOcc k (c :: cs) = false := by
      cases w with
      | true => exact Or.inl rfl
      | false => exact Or.inr (hasKW_head h)
    rw [subA_no_match hnm, ih (wordChar c) (hasKW_step h)]

/-! ## Lemmas about the whitespace-before-punctuation deletion -/

theorem sbpA_skip : ∀ n l, sbpA n l = sbpA 0 (l.drop n) := by
  intro n
  induction n with
  | zero => intro l; simp
  | succ n ih =>
    intro l
    match l with
    | [] => simp [sbpA]
    | c :: cs =>
      show sbpA n cs = _
      rw [ih, List.drop_succ_cons]

theorem dropWhile_eq_drop (p : Char → Bool) (l : List Char) :
    l.dropWhile p = l.drop (l.takeWhile p).length := by
  calc l.dropWhile p
      = List.drop (l.takeWhile p).length (l.takeWhile p ++ l.dropWhile p) :=
        (List.drop_left _ _).symm
    _ = l.drop (l.takeWhile p).length := by
        rw [List.takeWhile_append_dropWhile]

theorem sbpA_pass_nospace {c : Char} {cs : List Char} (h : spaceChar c = false) :
    sbpA 0 (c :: cs) = c :: sbpA 0 cs := by
  simp [sbpA, h]

theorem sbpA_pass_nil {c : Char} {cs : List Char}
    (hd : List.dropWhile spaceChar (c :: cs) = []) :
    sbpA 0 (c :: cs) = c :: sbpA 0 cs := by
  by_cases hsp : spaceChar c = true
  · simp [sbpA, hsp, hd]
  · simp [sbpA, hsp]

theorem sbpA_pass_nopunct {c p : Char} {cs t : List Char}
    (hd : List.dropWhile spaceChar (c :: cs) = p :: t) (hp : punctChar p = false) :
    sbpA 0 (c :: cs) = c :: sbpA 0 cs := by
  by_cases hsp : spaceChar c = true
  · simp [sbpA, hsp, hd, hp]
  · simp [sbpA, hsp]

theorem sbpA_match {c p : Char} {cs t : List Char}
    (hsp : spaceChar c = true) (hd : List.dropWhile spaceChar (c :: cs) = p :: t)
    (hp : punctChar p = true) :
    sbpA 0 (c :: cs) =
      p :: sbpA 0 (cs.drop (List.takeWhile spaceChar (c :: cs)).length) := by
  simp only [sbpA, hsp, if_true, hd, hp]
  rw [sbpA_skip]

/-- Transfer of a front occurrence through the space-deletion pass. -/
theorem headOcc_sbp : ∀ p l, p.all kwCharB = true →
    headOcc p (sbpA 0 l) = true → headOcc p l = true := by
  intro p
  induction p with
  | nil =>
    intro l _ hocc
    match l with
    | [] => simpa [headOcc, matchCIrest] using hocc
    | c :: cs =>
      by_cases hsp : spaceChar c = true
      · simp [headOcc, matchCIrest, endB, space_not_word hsp]
      · rw [sbpA_pass_nospace (Bool.eq_false_iff.2 hsp)] at hocc
        simpa [headOcc, matchCIrest, endB] using hocc
  | cons q qs ih =>
    intro l hall hocc
    have hq_all : kwCharB q = true ∧ qs.all kwCharB = true := by simpa using hall
    match l with
    | [] => simp [headOcc, matchCIrest] at hocc
    | c :: cs =>
      have peel : headOcc (q :: qs) (c :: sbpA 0 cs) = true →
          headOcc (q :: qs) (c :: cs) = true := by
        intro h2
        by_cases hq : ciEq q c = true
        · rw [headOcc_cons hq] at h2 ⊢
          exact ih cs hq_all.2 h2
        · rw [headOcc_cons_false (Bool.eq_false_iff.2 hq)] at h2
          exact absurd h2 (by simp)
      by_cases hsp : spaceChar c = true
      · rcases hdw : List.dropWhile spaceChar (c :: cs) with _ | ⟨p2, t⟩
        · rw [sbpA_pass_nil hdw] at hocc
          exact peel hocc
        · by_cases hp : punctChar p2 = true
          · rw [sbpA_match hsp hdw hp] at hocc
            rw [headOcc_cons_false (ciEq_punct_false hq_all.1 hp)] at hocc
            exact absurd hocc (by simp)
          · rw [sbpA_pass_nopunct hdw (Bool.eq_false_iff.2 hp)] at hocc
            exact peel hocc
      · rw [sbpA_pass_nospace (Bool.eq_false_iff.2 hsp)] at hocc
        exact peel hocc

/-- Stepping an occurrence search over a block of non-word characters. -/
theorem hasKW_down_nonword (k : List Char) :
    ∀ n l w, 1 ≤ n → (∀ c ∈ l.take n, wordChar c = false) →
      hasKW k w l = false → hasKW k false (l.drop n) = false := by
  intro n
  induction n with
  | zero => intro l w h; omega
  | succ n ih =>
    intro l w _ hmem hno
    match l with
    | [] => simp [hasKW]
    | c :: cs =>
      have hc : wordChar c = false := hmem c (by simp)
      have hstep := hasKW_step hno
      rw [hc] at hstep
      rw [List.drop_succ_cons]
      cases n with
      | zero => simpa using hstep
      | succ m =>
        refine ih cs false (by omega) ?_ hstep
        intro x hx
        refine hmem x ?_
        rw [List.take_succ_cons]
        exact List.mem_cons_of_mem c hx

/-- The space-deletion pass cannot introduce a whole-word occurrence of a
keyword: deleted characters are whitespace runs sitting immediately before
punctuation, and neither participates in a keyword occurrence. -/
theorem hasKW_sbp (k : List Char) (hk : kwOK k = true) :
    ∀ l w, hasKW k w l = false → hasKW k w (sbpA 0 l) = false := by
  simp only [kwOK, Bool.and_eq_true, decide_eq_true_eq] at hk
  obtain ⟨⟨⟨hlen, hall⟩, hhd⟩, hlast⟩ := hk
  cases k with
  | nil => simp at hlen
  | cons k0 ktail =>
    have hk0L : letterB k0 = true := by simpa using hhd
    have hk0 : kwCharB k0 = true := by
      simp only [kwCharB, Bool.or_eq_true]
      exact Or.inl hk0L
    have main : ∀ n l w, l.length ≤ n → hasKW (k0 :: ktail) w l = false →
        hasKW (k0 :: ktail) w (sbpA 0 l) = false := by
      intro n
      induction n with
      | zero =>
        intro l w hl _
        have hl2 : l = [] := List.length_eq_zero.1 (Nat.le_zero.1 hl)
        subst hl2
        simp [sbpA, hasKW]
      | succ n ih =>
        intro l w hl hno
        match l with
        | [] => simp [sbpA, hasKW]
        | c :: cs =>
          have pass_case : sbpA 0 (c :: cs) = c :: sbpA 0 cs →
              hasKW (k0 :: ktail) w (c :: sbpA 0 cs) = false := by
            intro heq
            rw [hasKW_cons,
              ih cs (wordChar c) (by simpa using Nat.le_of_succ_le_succ hl)
                (hasKW_step hno)]
            cases w with
            | true => simp
            | false =>
              have hof : headOcc (k0 :: ktail) (c :: sbpA 0 cs) = false := by
                rw [Bool.eq_false_iff]
                intro h2
                rw [← heq] at h2
                have h3 := headOcc_sbp (k0 :: ktail) (c :: cs) hall h2
                have h4 := hasKW_head hno
                rw [h3] at h4
                exact absurd h4 (by simp)
              rw [hof]
              simp
          by_cases hsp : spaceChar c = true
          · rcases hdw : List.dropWhile spaceChar (c :: cs) with _ | ⟨p2, t⟩
            · rw [sbpA_pass_nil hdw]
              exact pass_case (sbpA_pass_nil hdw)
            · by_cases hp : punctChar p2 = true
              · rw [sbpA_match hsp hdw hp]
                set m := (List.takeWhile spaceChar (c :: cs)).length with hm
                have hdd : (c :: cs).drop m = p2 :: t := by
                  rw [← dropWhile_eq_drop spaceChar (c :: cs)]
                  exact hdw
                have ht : cs.drop m = t := by
                  have h2 : (c :: cs).drop (m + 1) = t := by
                    rw [← List.drop_drop, hdd]
                    simp
                  rwa [List.drop_succ_cons] at h2
                rw [ht, hasKW_cons, headOcc_cons_false (ciEq_punct_false hk0 hp),
                  punct_not_word hp]
                simp only [Bool.and_false, Bool.false_or]
                have htake : (c :: cs).take (m + 1) =
                    List.takeWhile spaceChar (c :: cs) ++ [p2] := by
                  conv_lhs => rw [← List.takeWhile_append_dropWhile spaceChar (c :: cs)]
                  rw [hdw, List.take_append_eq_append_take,
                    List.take_of_length_le (by omega), hm]
                  simp
                have hmem : ∀ x ∈ (c :: cs).take (m + 1), wordChar x = false := by
                  rw [htake]
                  intro x hx
                  rcases List.mem_append.1 hx with hx | hx
                  · exact space_not_word (List.mem_takeWhile_imp hx)
                  · simp only [List.mem_singleton] at hx
                    subst hx
                    exact punct_not_word hp
                have hdn := hasKW_down_nonword (k0 :: ktail) (m + 1) (c :: cs) w
                  (by omega) hmem hno
                rw [List.drop_succ_cons, ht] at hdn
                refine ih t false ?_ hdn
                have h3 := congrArg List.length ht
                simp only [List.length_drop] at h3
                simp only [List.length_cons] at hl
                omega
              · rw [sbpA_pass_nopunct hdw (Bool.eq_false_iff.2 hp)]
                exact pass_case (sbpA_pass_nopunct hdw (Bool.eq_false_iff.2 hp))
          · rw [sbpA_pass_nospace (Bool.eq_false_iff.2 hsp)]
            exact pass_case (sbpA_pass_nospace (Bool.eq_false_iff.2 hsp))
    intro l w
    exact main l.length l w le_rfl

/-! ## Lemmas about stripping and the no-space-before-punctuation form -/

theorem headOcc_append {p l1 l2 : List Char} (hocc : headOcc p l1 = true)
    (h2 : ∀ c ∈ l2, wordChar c = false) : headOcc p (l1 ++ l2) = true := by
  unfold headOcc at hocc ⊢
  rcases hre : matchCIrest p l1 with _ | r
  · rw [hre] at hocc
    exact absurd hocc (by simp)
  · rw [hre] at hocc
    rw [matchCIrest_append p l1 l2 r hre]
    rcases r with _ | ⟨x, xs⟩
    · rcases l2 with _ | ⟨y, ys⟩
      · simp [endB]
      · simp only [List.nil_append, endB]
        rw [h2 y (by simp)]
        rfl
    · simpa [endB] using hocc

theorem hasKW_append (k : List Char) :
    ∀ l1 l2 w, hasKW k w (l1 ++ l2) = false → (∀ c ∈ l2, wordChar c = false) →
      hasKW k w l1 = false := by
  intro l1
  induction l1 with
  | nil => intro l2 w _ _; rfl
  | cons c cs ih =>
    intro l2 w h hl2
    rw [List.cons_append] at h
    rw [hasKW_cons, ih l2 (wordChar c) (hasKW_step h) hl2]
    cases w with
    | true => simp
    | false =>
      have hof : headOcc k (c :: cs) = false := by
        rw [Bool.eq_false_iff]
        intro h2
        have h3 := headOcc_append h2 hl2
        have h4 := hasKW_head h
        rw [show (c :: cs) ++ l2 = c :: (cs ++ l2) from rfl] at h3
        rw [h3] at h4
        exact absurd h4 (by simp)
      rw [hof]
      simp

/-- The stripped string is a prefix of the front-stripped string, the
difference being trailing whitespace. -/
theorem pyStrip_split (l : List Char) :
    l.dropWhile spaceChar =
      pyStrip l ++ (List.takeWhile spaceChar (l.dropWhile spaceChar).reverse).reverse := by
  have h2 := List.takeWhile_append_dropWhile spaceChar (l.dropWhile spaceChar).reverse
  have h3 := congrArg List.reverse h2
  rw [List.reverse_append, List.reverse_reverse] at h3
  simp only [pyStrip]
  exact h3.symm

theorem hasKW_pyStrip (k : List Char) :
    ∀ l, hasKW k false l = false → hasKW k false (pyStrip l) = false := by
  intro l h
  have htake : l.take (l.takeWhile spaceChar).length = l.takeWhile spaceChar := by
    calc l.take (l.takeWhile spaceChar).length
        = List.take (l.takeWhile spaceChar).length
            (l.takeWhile spaceChar ++ l.dropWhile spaceChar) := by
          rw [List.takeWhile_append_dropWhile]
      _ = l.takeWhile spaceChar := List.take_left _ _
  have hfront : hasKW k false (l.dropWhile spaceChar) = false := by
    rcases htw : (l.takeWhile spaceChar).length with _ | m
    · rw [dropWhile_eq_drop, htw]
      simpa using h
    · rw [dropWhile_eq_drop, htw]
      refine hasKW_down_nonword k (m + 1) l false (by omega) ?_ h
      intro x hx
      rw [← htw, htake] at hx
      exact space_not_word (List.mem_takeWhile_imp hx)
  have hsplit := pyStrip_split l
  rw [hsplit] at hfront
  refine hasKW_append k (pyStrip l) _ false hfront ?_
  intro c hc
  rw [List.mem_reverse] at hc
  exact space_not_word (List.mem_takeWhile_imp hc)

theorem space_not_punct {c : Char} (h : spaceChar c = true) : punctChar c = false := by
  rw [spaceChar_iff] at h
  rw [Bool.eq_false_iff]
  intro h2
  rw [punctChar_iff] at h2
  omega

theorem noSP_tail {c : Char} {l : List Char} (h : noSP (c :: l) = true) :
    noSP l = true := by
  cases l with
  | nil => rfl
  | cons d r =>
    simp only [noSP, Bool.and_eq_true] at h
    exact h.2

theorem noSP_cons_of {c : Char} {l : List Char}
    (h1 : l = [] ∨ ∃ z zs, l = z :: zs ∧ (spaceChar c = false ∨ punctChar z = false))
    (h2 : noSP l = true) : noSP (c :: l) = true := by
  rcases h1 with h1 | ⟨z, zs, hzz, h3⟩
  · subst h1; rfl
  · subst hzz
    simp only [noSP, Bool.and_eq_true]
    refine ⟨?_, h2⟩
    rcases h3 with h3 | h3 <;> simp [h3]

theorem dropWhile_head_nopunct :
    ∀ cs c, noSP (c :: cs) = true → spaceChar c = true →
      ∀ p t, List.dropWhile spaceChar (c :: cs) = p :: t → punctChar p = false := by
  intro cs
  induction cs with
  | nil =>
    intro c _ hsp p t hd
    rw [List.dropWhile_cons_of_pos hsp] at hd
    simp at hd
  | cons d r ih =>
    intro c hno hsp p t hd
    rw [List.dropWhile_cons_of_pos hsp] at hd
    by_cases hsd : spaceChar d = true
    · exact ih d (noSP_tail hno) hsd p t hd
    · rw [List.dropWhile_cons_of_neg (by simp [hsd])] at hd
      injection hd with h1 _
      subst h1
      simp only [noSP, Bool.and_eq_true] at hno
      have h3 := hno.1
      rw [hsp] at h3
      simpa using h3

theorem sbp_id_of_noSP : ∀ l, noSP l = true → sbpA 0 l = l := by
  intro l
  induction l with
  | nil => intro _; rfl
  | cons c cs ih =>
    intro h
    have htail := ih (noSP_tail h)
    by_cases hsp : spaceChar c = true
    · rcases hdw : List.dropWhile spaceChar (c :: cs) with _ | ⟨p, t⟩
      · rw [sbpA_pass_nil hdw, htail]
      · have hp := dropWhile_head_nopunct cs c h hsp p t hdw
        rw [sbpA_pass_nopunct hdw hp, htail]
    · rw [sbpA_pass_nospace (Bool.eq_false_iff.2 hsp), htail]

theorem sbpA_head_shape :
    ∀ cs, (∀ p t, List.dropWhile spaceChar cs = p :: t → punctChar p = false) →
      sbpA 0 cs = [] ∨ ∃ z zs, sbpA 0 cs = z :: zs ∧ punctChar z = false := by
  intro cs hnp
  match cs with
  | [] => exact Or.inl rfl
  | d :: r =>
    by_cases hsd : spaceChar d = true
    · rcases hdw : List.dropWhile spaceChar (d :: r) with _ | ⟨p, t⟩
      · rw [sbpA_pass_nil hdw]
        exact Or.inr ⟨d, _, rfl, space_not_punct hsd⟩
      · have hp := hnp p t hdw
        rw [sbpA_pass_nopunct hdw hp]
        exact Or.inr ⟨d, _, rfl, space_not_punct hsd⟩
    · rw [sbpA_pass_nospace (Bool.eq_false_iff.2 hsd)]
      refine Or.inr ⟨d, _, rfl, ?_⟩
      exact hnp d r (List.dropWhile_cons_of_neg (by simp [hsd]))

theorem noSP_sbp : ∀ l, noSP (sbpA 0 l) = true := by
  have main : ∀ n l, l.length ≤ n → noSP (sbpA 0 l) = true := by
    intro n
    induction n with
    | zero =>
      intro l hl
      have hl2 : l = [] := List.length_eq_zero.1 (Nat.le_zero.1 hl)
      subst hl2
      rfl
    | succ n ih =>
      intro l hl
      match l with
      | [] => rfl
      | c :: cs =>
        by_cases hsp : spaceChar c = true
        · rcases hdw : List.dropWhile spaceChar (c :: cs) with _ | ⟨p2, t⟩
          · rw [sbpA_pass_nil hdw]
            have hdw2 : List.dropWhile spaceChar cs = [] := by
              rw [List.dropWhile_cons_of_pos hsp] at hdw
              exact hdw
            have hshape := sbpA_head_shape cs (fun p t h2 => by
              rw [h2] at hdw2
              exact absurd hdw2 (by simp))
            refine noSP_cons_of ?_ (ih cs (by simpa using Nat.le_of_succ_le_succ hl))
            rcases hshape with h2 | ⟨z, zs, h2, h3⟩
            · exact Or.inl h2
            · exact Or.inr ⟨z, zs, h2, Or.inr h3⟩
          · by_cases hp : punctChar p2 = true
            · rw [sbpA_match hsp hdw hp]
              refine noSP_cons_of ?_
                (ih (cs.drop (List.takeWhile spaceChar (c :: cs)).length) ?_)
              · rcases hz : sbpA 0 (cs.drop (List.takeWhile spaceChar (c :: cs)).length)
                  with _ | ⟨z, zs⟩
                · exact Or.inl rfl
                · exact Or.inr ⟨z, zs, rfl, Or.inl (punct_not_space hp)⟩
              · simp only [List.length_drop, List.length_cons] at hl ⊢
                omega
            · rw [sbpA_pass_nopunct hdw (Bool.eq_false_iff.2 hp)]
              have hdw2 : List.dropWhile spaceChar cs = p2 :: t := by
                rw [List.dropWhile_cons_of_pos hsp] at hdw
                exact hdw
              have hshape := sbpA_head_shape cs (fun p t2 h2 => by
                rw [hdw2] at h2
                injection h2 with e1 _
                rw [← e1]
                exact Bool.eq_false_iff.2 hp)
              refine noSP_cons_of ?_ (ih cs (by simpa using Nat.le_of_succ_le_succ hl))
              rcases hshape with h2 | ⟨z, zs, h2, h3⟩
              · exact Or.inl h2
              · exact Or.inr ⟨z, zs, h2, Or.inr h3⟩
        · rw [sbpA_pass_nospace (Bool.eq_false_iff.2 hsp)]
          refine noSP_cons_of ?_ (ih cs (by simpa using Nat.le_of_succ_le_succ hl))
          rcases hz : sbpA 0 cs with _ | ⟨z, zs⟩
          · exact Or.inl rfl
          · exact Or.inr ⟨z, zs, rfl, Or.inl (Bool.eq_false_iff.2 hsp)⟩
  intro l
  exact main l.length l le_rfl

theorem noSP_drop : ∀ n l, noSP l = true → noSP (l.drop n) = true := by
  intro n
  induction n with
  | zero => intro l h; simpa using h
  | succ n ih =>
    intro l h
    match l with
    | [] => rfl
    | c :: cs =>
      rw [List.drop_succ_cons]
      exact ih cs (noSP_tail h)

theorem noSP_append_left : ∀ l1 l2, noSP (l1 ++ l2) = true → noSP l1 = true := by
  intro l1
  induction l1 with
  | nil => intro _ _; rfl
  | cons c cs ih =>
    intro l2 h
    cases cs with
    | nil => rfl
    | cons d r =>
      simp only [List.cons_append, noSP, Bool.and_eq_true] at h ⊢
      exact ⟨h.1, ih l2 h.2⟩

theorem noSP_pyStrip {l : List Char} (h : noSP l = true) : noSP (pyStrip l) = true := by
  have h1 : noSP (l.dropWhile spaceChar) = true := by
    rw [dropWhile_eq_drop]
    exact noSP_drop _ _ h
  rw [pyStrip_split l] at h1
  exact noSP_append_left _ _ h1

theorem dropWhile_idem (p : Char → Bool) (l : List Char) :
    (l.dropWhile p).dropWhile p = l.dropWhile p := by
  rcases h : l.dropWhile p with _ | ⟨x, xs⟩
  · rfl
  · have hx : p x = false := by
      have h2 := List.head?_dropWhile_not p l
      rw [h] at h2
      simpa using h2
    rw [List.dropWhile_cons_of_neg (by simp [hx])]

theorem pyStrip_idem (l : List Char) : pyStrip (pyStrip l) = pyStrip l := by
  rcases hb : pyStrip l with _ | ⟨z, zs⟩
  · rfl
  · have hz : spaceChar z = false := by
      have hs := pyStrip_split l
      rw [hb] at hs
      have h2 := List.head?_dropWhile_not spaceChar l
      rw [hs] at h2
      simpa using h2
    have h1 : (pyStrip l).dropWhile spaceChar = pyStrip l := by
      rw [hb]
      exact List.dropWhile_cons_of_neg (by simp [hz])
    have h2 : (pyStrip l).reverse = (l.dropWhile spaceChar).reverse.dropWhile spaceChar := by
      simp only [pyStrip, List.reverse_reverse]
    rw [← hb]
    show (((pyStrip l).dropWhile spaceChar).reverse.dropWhile spaceChar).reverse = pyStrip l
    rw [h1, h2, dropWhile_idem, ← h2, List.reverse_reverse]

/-- Idempotence of the whole `punctuate` pipeline on character lists. -/
theorem punctuateL_idem (l : List Char) : punctuateL (punctuateL l) = punctuateL l := by
  have hkq : kwOK "question mark".data = true := by decide
  have hke : kwOK "exclamation mark".data = true := by decide
  have hkc : kwOK "comma".data = true := by decide
  have hkf : kwOK "full stop".data = true := by decide
  have hkn : kwOK "new line".data = true := by decide
  have hsq : symOK '?' = true := by decide
  have hse : symOK '!' = true := by decide
  have hsc : symOK ',' = true := by decide
  have hsf : symOK '.' = true := by decide
  have hsn : symOK '\n' = true := by decide
  have hgen : ∀ x : List Char, punctuateL x =
      pyStrip (sbpA 0 (subA "new line".data '\n' 0 false (subA "full stop".data '.' 0 false
        (subA "comma".data ',' 0 false (subA "exclamation mark".data '!' 0 false
          (subA "question mark".data '?' 0 false x)))))) := fun x => rfl
  have noq : hasKW "question mark".data false (punctuateL l) = false := by
    rw [hgen l]
    apply hasKW_pyStrip
    apply hasKW_sbp _ hkq
    apply hasKW_subA_other _ _ _ hkq hkn hsn
    apply hasKW_subA_other _ _ _ hkq hkf hsf
    apply hasKW_subA_other _ _ _ hkq hkc hsc
    apply hasKW_subA_other _ _ _ hkq hke hse
    exact hasKW_subA_self _ _ hkq hsq l false
  have noe : hasKW "exclamation mark".data false (punctuateL l) = false := by
    rw [hgen l]
    apply hasKW_pyStrip
    apply hasKW_sbp _ hke
    apply hasKW_subA_other _ _ _ hke hkn hsn
    apply hasKW_subA_other _ _ _ hke hkf hsf
    apply hasKW_subA_other _ _ _ hke hkc hsc
    exact hasKW_subA_self _ _ hke hse _ false
  have noc : hasKW "comma".data false (punctuateL l) = false := by
    rw [hgen l]
    apply hasKW_pyStrip
    apply hasKW_sbp _ hkc
    apply hasKW_subA_other _ _ _ hkc hkn hsn
    apply hasKW_subA_other _ _ _ hkc hkf hsf
    exact hasKW_subA_self _ _ hkc hsc _ false
  have nof : hasKW "full stop".data false (punctuateL l) = false := by
    rw [hgen l]
    apply hasKW_pyStrip
    apply hasKW_sbp _ hkf
    apply hasKW_subA_other _ _ _ hkf hkn hsn
    exact hasKW_subA_self _ _ hkf hsf _ false
  have non : hasKW "new line".data false (punctuateL l) = false := by
    rw [hgen l]
    apply hasKW_pyStrip
    apply hasKW_sbp _ hkn
    exact hasKW_subA_self _ _ hkn hsn _ false
  have hnosp : noSP (punctuateL l) = true := by
    rw [hgen l]
    exact noSP_pyStrip (noSP_sbp _)
  have hstrip : pyStrip (punctuateL l) = punctuateL l := by
    rw [hgen l]
    exact pyStrip_idem _
  rw [hgen (punctuateL l), subA_id _ _ _ _ noq, subA_id _ _ _ _ noe, subA_id _ _ _ _ noc,
    subA_id _ _ _ _ nof, subA_id _ _ _ _ non, sbp_id_of_noSP _ hnosp, hstrip]

/-- C1: punctuation substitution is idempotent — applying `punctuate` to
its own output returns that output unchanged, for every input string. -/
theorem punctuate_idempotent (s : String) : punctuate (punctuate s) = punctuate s := by
  show (⟨punctuateL (punctuateL s.data)⟩ : String) = ⟨punctuateL s.data⟩
  rw [punctuateL_idem]

/-- Witness for the amended C9 at a concrete script. -/
theorem stop_latency_amended_witness :
    (∀ i ∈ [(⟨⟨true, none, ⟨false, false⟩, none⟩, 3, 0⟩ : TIter)], tIterDur i ≤ 3) ∧
    stopOK 5 0 [⟨⟨true, none, ⟨false, false⟩, none⟩, 3, 0⟩] = true ∧
    ∀ p ∈ runT 0 [(⟨⟨true, none, ⟨false, false⟩, none⟩, 3, 0⟩ : TIter)], p.1 ≤ 5 + 3 :=
  ⟨by decide, by decide,
    stop_latency_amended 5 0 3 [⟨⟨true, none, ⟨false, false⟩, none⟩, 3, 0⟩]
      (by decide) (by decide) (by decide)⟩

end VoiceTyping

